import Mathlib

/-!
Verification of the heuristic founder-record parser of `ua-edr-extractor`
(`record_parser.py`).  The Python source is shallowly embedded below:

* `FingerprintClass` and `FingerprintClass.classify_fingerprint` embed the
  `IntEnum` and its classmethod (lines 33-85 of the source);
* `chunksAux` embeds the run-scanning loop that appears verbatim twice in
  the source (`get_extracted`, lines 288-304, accumulating tokens, and
  `get_longest_range`, lines 321-335, accumulating indices); it is generic
  in what is paired with each boolean class, exactly covering both copies;
* `get_extracted`, `get_fingerprint`, `get_longest_range` embed the
  corresponding methods of `HeuristicBasedParser`;
* `parse_founders_record` embeds `HeuristicBasedParser.parse_founders_record`
  (lines 172-270).  The gazetteer membership tests
  `preclassify_chunk_as_name` / `preclassify_chunk_as_country` are just
  set-membership of a token in a word list loaded from data files that are
  not part of the analysed source, so they enter as function parameters
  `isName`/`isCountry`.  Python operations that can raise (`None`
  subscription, out-of-range indexing) are modelled in `Option`: a `none`
  result of `parse_founders_record` corresponds to an exception escaping
  the Python function.

Spec-side definitions (`specRuns`, `specClassifyTable`, `specAddress`, ...)
are written from the specification's wording and compared with the
embedded code by the theorems at the end of the file.
-/

namespace UaEdr

/-- Python's string containment test `s in t`: `s` is a contiguous substring
of `t` (the empty string is a substring of everything).  Used by the source
at lines 244 and 247 (`record[...] in ",.;- "`). -/
def pyInStr (s t : String) : Bool :=
  (List.range (t.data.length + 1)).any fun i =>
    (List.range (t.data.length + 1)).any fun j =>
      ((⟨(t.data.drop i).take j⟩ : String) == s)

/-- Python's `max` on a list of naturals.  `max` of an empty list raises in
Python; the source only applies it to non-empty fingerprints (guarded by the
`len(fingerprint) == 0` check), where the `0` default is never used. -/
def pyMax : List Nat → Nat
  | [] => 0
  | x :: xs => xs.foldl max x

/-- Python indexing `l[i]` for `i : Int`, including the negative-index
convention; `none` models an `IndexError`.  Needed because
`record[address_rng[1] - 1]` (source line 247) can be evaluated at `-1`. -/
def pyGet (l : List String) (i : Int) : Option String :=
  if 0 ≤ i then l[i.toNat]?
  else if 0 ≤ (l.length : Int) + i then l[((l.length : Int) + i).toNat]?
  else none

/-- The `FingerprintClass` enumeration (source lines 33-55). -/
inductive FingerprintClass where
  | IDEAL
  | ALMOST_IDEAL
  | COMPLICATED
  | COMPLICATED_AND_STRANGE
  | EMPTY
  | ALMOST_EMPTY
  | INCOMPLETE
  | JUNK
deriving DecidableEq, Repr

/-- Embeds `FingerprintClass.classify_fingerprint` (source lines 57-85): the chain
of early-`return` `if`s, in source order. -/
def FingerprintClass.classify_fingerprint (fingerprint : List Nat) : FingerprintClass :=
  if fingerprint.length = 0 then .EMPTY
  else if pyMax fingerprint = 3 ∧ fingerprint.length = 1 then .IDEAL
  else if pyMax fingerprint = 3 then .ALMOST_IDEAL
  else if 3 < pyMax fingerprint ∧ fingerprint.length = 1 then .COMPLICATED
  else if 3 < pyMax fingerprint then .COMPLICATED_AND_STRANGE
  else if pyMax fingerprint = 1 then .ALMOST_EMPTY
  else if pyMax fingerprint = 2 then .INCOMPLETE
  else .JUNK

/-- The internal pre-parsed record representation: the tokenized record and
its boolean classification vector (the `{"record": ..., "preclassified": ...}`
dicts built at source lines 198-201 and 219-222; there the two lists always
have equal length, as `preclassified` is a `map` over `record`). -/
structure Record where
  record : List String
  preclassified : List Bool

/-- The run-scanning loop shared by `get_extracted` (source lines 288-304,
where `α = String`: `current_chunk.append(record[i])`) and
`get_longest_range` (source lines 321-335, where `α = Nat`:
`current_chunk.append(i)`).  Iterating over `enumerate(preclassified)` while
reading `record[i]` is realised by iterating over the zip of the payload
list with the classification vector; `state`, `cur`, `res` are the loop
variables `state`, `current_chunk`, `res`.  `word_cls == 1` is `cls = true`
(Python `True == 1`), and the `elif word_cls != state` branch fires exactly
when `cls = false` and `state = true`. -/
def chunksAux {α : Type} : List (α × Bool) → Bool → List α → List (List α) → List (List α)
  | [], _, cur, res => if cur.isEmpty then res else res ++ [cur]
  | (a, cls) :: rest, state, cur, res =>
    if cls then chunksAux rest cls (cur ++ [a]) res
    else if cls != state then chunksAux rest cls [] (res ++ [cur])
    else chunksAux rest cls cur res

/-- Embeds `HeuristicBasedParser.get_extracted` (source lines 272-304). -/
def get_extracted (r : Record) : List (List String) :=
  chunksAux (r.record.zip r.preclassified) false [] []

/-- Embeds `HeuristicBasedParser.get_fingerprint` (source lines 341-355):
`tuple(map(len, self.get_extracted(record)))`. -/
def get_fingerprint (r : Record) : List Nat :=
  (get_extracted r).map List.length

/-- One step of a stable insertion sort by chunk length, descending: the
element being inserted originates later in the original list than everything
already sorted, so it is placed before the first chunk of smaller *or equal*
length.  This is the unique stable descending sort by length, hence it
agrees with Python's `sorted(res, key=lambda x: len(x), reverse=True)`
(source line 338), `sorted` being guaranteed stable. -/
def insertRunDesc (x : List Nat) : List (List Nat) → List (List Nat)
  | [] => [x]
  | y :: ys => if y.length ≤ x.length then x :: y :: ys else y :: insertRunDesc x ys

/-- Stable descending-by-length sort (see `insertRunDesc`). -/
def sortRunsDesc : List (List Nat) → List (List Nat)
  | [] => []
  | x :: xs => insertRunDesc x (sortRunsDesc xs)

/-- Embeds `HeuristicBasedParser.get_longest_range` (source lines 306-339): runs
the index-accumulating copy of the scan loop, and, when any run was found,
sorts the runs by length (descending, stable) and returns
`(res[0][0], res[0][-1] + 1)`; with no run it falls through and returns
`None`.  The chunks are non-empty (proved below), so the `headD`/`getLastD`
defaults are never used and `res[0][0]`/`res[0][-1]` cannot raise. -/
def get_longest_range (r : Record) : Option (Nat × Nat) :=
  match sortRunsDesc
      (chunksAux ((List.range r.preclassified.length).zip r.preclassified) false [] []) with
  | [] => none
  | c :: _ => some (c.headD 0, c.getLastD 0 + 1)

/-- The result dict of `parse_founders_record` (source lines 257-268).  The
fields `names`, `countries`, `addresses` are the `"Name"`,
`"Country of residence"`, `"Address of residence"` entries; the `_rng`
fields are the three range entries added when `include_range` is requested
(they are computed unconditionally in the source and merely not copied into
the dict when `include_range` is off). -/
structure ExtractionResult where
  names : List String
  countries : List String
  addresses : List String
  name_rng : List (Nat × Nat)
  country_rng : List (Nat × Nat)
  address_rng : List (Nat × Nat)
deriving DecidableEq, Repr

/-- The five-character Python string `",.;- "` used for the punctuation test
at source lines 244 and 247. -/
def punctChars : String := ",.;- "

/-- The address-derivation block of `parse_founders_record` (source lines
232-255), parameterised by the token list and the end index `country[1]` of
the extracted country span.  Returns the `addresses` and `address_rng`
lists; `none` models a Python exception (never actually reachable).  The
two `pyGet` calls are `record[address_rng[0]]` and
`record[address_rng[1] - 1]`; the second index is an `Int` because the
anchor keyword can sit at index 0, making it `-1`. -/
def addressStep (founder : List String) (countryEnd : Nat) :
    Option (List String × List (Nat × Nat)) :=
  if countryEnd < founder.length then
    let aEnd : Int :=
      if founder.contains "розмір" then (List.indexOf "розмір" founder : Int)
      else (founder.length : Int)
    (pyGet founder countryEnd).bind fun tok0 =>
      let a0 : Int := if pyInStr tok0 punctChars then (countryEnd : Int) + 1 else countryEnd
      (pyGet founder (aEnd - 1)).bind fun tok1 =>
        let b : Int := if pyInStr tok1 punctChars then aEnd - 1 else aEnd
        if a0 < b then
          some ([String.intercalate " " ((founder.drop a0.toNat).take (b - a0).toNat)],
                [(a0.toNat, b.toNat)])
        else some ([], [])
  else some ([], [])

/-- The name-extraction block of `parse_founders_record` (source lines
198-217): when the fingerprint class is one of the four name-bearing
classes, the longest name run is extracted and its tokens joined with
single spaces; `none` models the exception Python would raise by
subscripting a `None` range. -/
def nameStep (isName : String → Bool) (founder : List String) :
    Option (List String × List (Nat × Nat)) :=
  let name_rec : Record := ⟨founder, founder.map isName⟩
  if FingerprintClass.classify_fingerprint (get_fingerprint name_rec) ∈
      [FingerprintClass.IDEAL, FingerprintClass.COMPLICATED,
       FingerprintClass.ALMOST_IDEAL, FingerprintClass.COMPLICATED_AND_STRANGE] then
    (get_longest_range name_rec).bind fun n_rng =>
      some ([String.intercalate " " ((founder.drop n_rng.1).take (n_rng.2 - n_rng.1))],
            [n_rng])
  else some ([], [])

/-- Embeds `HeuristicBasedParser.parse_founders_record` (source lines 172-270).
`isName` / `isCountry` are `preclassify_chunk_as_name` /
`preclassify_chunk_as_country` (membership in the name and country
gazetteers, loaded from data files outside the analysed source).  Python
slicing `record[a:b]` with `0 ≤ a ≤ b` is `(drop a).take (b - a)`, and
`" ".join` is `String.intercalate " "`.  A `none` result models an
exception escaping the Python function (e.g. subscripting the `None`
returned by `get_longest_range`); the totality theorem below shows this
never happens. -/
def parse_founders_record (isName isCountry : String → Bool) (founder : List String) :
    Option ExtractionResult :=
  (nameStep isName founder).bind fun nr =>
    let country_rec : Record := ⟨founder, founder.map isCountry⟩
    if get_fingerprint country_rec ∈ [[1], [2], [3]] then
      (get_longest_range country_rec).bind fun country =>
        let countries :=
          [String.intercalate " " ((founder.drop country.1).take (country.2 - country.1))]
        (addressStep founder country.2).bind fun ar =>
          some ⟨nr.1, countries, ar.1, nr.2, [country], ar.2⟩
    else some ⟨nr.1, [], [], nr.2, [], []⟩

/-! ### Specification-side definitions

These are written from the words of the specification, independently of the
loop structure of the source, and are related to the embedded code by the
theorems below. -/

/-- Shift the start positions of a list of `(start, length)` runs by one. -/
def shiftRuns (rs : List (Nat × Nat)) : List (Nat × Nat) :=
  rs.map fun p => (p.1 + 1, p.2)

/-- The maximal contiguous runs of `true` values of a boolean vector, as
`(start index, length)` pairs in order of occurrence; runs of `false`
contribute nothing.  Spec-side notion of §3 "Fingerprint" / §4.4. -/
def specRuns : List Bool → List (Nat × Nat)
  | [] => []
  | false :: v => shiftRuns (specRuns v)
  | true :: v =>
    match specRuns v with
    | (0, l) :: rest => (0, l + 1) :: shiftRuns rest
    | rs => (0, 1) :: shiftRuns rs

/-- The classification rule table exactly as worded in the claim/spec §4.3,
first match wins: rule 3 fires when *any* run has length exactly 3 (with
multiple runs present), rule 5 when *any* run is longer than 3 (with
multiple runs present). -/
def specClassifyTable (fp : List Nat) : FingerprintClass :=
  if fp = [] then .EMPTY
  else if fp = [3] then .IDEAL
  else if fp.contains 3 ∧ 1 < fp.length then .ALMOST_IDEAL
  else if fp.length = 1 ∧ fp.any (fun x => 3 < x) then .COMPLICATED
  else if fp.any (fun x => 3 < x) ∧ 1 < fp.length then .COMPLICATED_AND_STRANGE
  else if pyMax fp = 1 then .ALMOST_EMPTY
  else if pyMax fp = 2 then .INCOMPLETE
  else .JUNK

/-- The classification rule table with rules 3 and 5 amended to speak of the
*maximum* run length (this is what the code computes): rule 3 fires when
the maximum run length is exactly 3, rule 5 when it exceeds 3. -/
def amendedClassifyTable (fp : List Nat) : FingerprintClass :=
  if fp = [] then .EMPTY
  else if fp = [3] then .IDEAL
  else if pyMax fp = 3 then .ALMOST_IDEAL
  else if fp.length = 1 ∧ 3 < pyMax fp then .COMPLICATED
  else if 3 < pyMax fp then .COMPLICATED_AND_STRANGE
  else if pyMax fp = 1 then .ALMOST_EMPTY
  else if pyMax fp = 2 then .INCOMPLETE
  else .JUNK

/-- Address derivation as worded in the claim for C6 but with the
punctuation trim amended to Python's substring semantics: from the end `k`
of the country span (with `k < tokens.length`), the address range runs to
the index of the first occurrence of the anchor keyword `"розмір"` when
present, else to the end of the record; one leading and one trailing token
are dropped when they are substrings of `",.;- "`; an empty or inverted
range yields no address, otherwise the tokens are joined with single
spaces. -/
def specAddress (tokens : List String) (k : Nat) : List String :=
  let m : Nat := if tokens.contains "розмір" then List.indexOf "розмір" tokens
                 else tokens.length
  let a : Nat := if pyInStr (tokens.getD k "") punctChars then k + 1 else k
  let b : Int := if pyInStr (tokens.getD (m - 1) "") punctChars then (m : Int) - 1
                 else (m : Int)
  if (a : Int) < b then
    [String.intercalate " " ((tokens.drop a).take (b - a).toNat)]
  else []

/-- Address derivation with the punctuation trim exactly as worded in the
unamended claim for C6: a token is trimmed only when it is *one of* the five
single-character tokens `","`, `"."`, `";"`, `"-"`, `" "`. -/
def claimTrimTok (s : String) : Bool :=
  s == "," || s == "." || s == ";" || s == "-" || s == " "

/-- The C6 claim's address derivation, verbatim (single-character
punctuation trim; everything else as in `specAddress`). -/
def claimAddress (tokens : List String) (k : Nat) : List String :=
  let m : Nat := if tokens.contains "розмір" then List.indexOf "розмір" tokens
                 else tokens.length
  let a : Nat := if claimTrimTok (tokens.getD k "") then k + 1 else k
  let b : Int := if claimTrimTok (tokens.getD (m - 1) "") then (m : Int) - 1
                 else (m : Int)
  if (a : Int) < b then
    [String.intercalate " " ((tokens.drop a).take (b - a).toNat)]
  else []

/-- First element of maximal length among a list of runs (spec-side
formulation of the tie-break of §4.4): the head of the stable
descending-by-length sort. -/
def firstMaxRun : List (List Nat) → Option (List Nat)
  | [] => none
  | x :: xs =>
    match firstMaxRun xs with
    | none => some x
    | some b => if b.length ≤ x.length then some x else some b

/-- First pair of maximal second component (spec-side tie-break on
`(start, length)` runs). -/
def firstMaxPair : List (Nat × Nat) → Option (Nat × Nat)
  | [] => none
  | p :: ps =>
    match firstMaxPair ps with
    | none => some p
    | some q => if q.2 ≤ p.2 then some p else some q

/-- The token segment of `xs` selected by a `(start, length)` run. -/
def seg {α : Type} (xs : List α) (p : Nat × Nat) : List α :=
  (xs.drop p.1).take p.2

/-! ### The run-scanning loop computes the maximal true-runs -/

theorem chunksAux_nil {α : Type} (st : Bool) (cur : List α) (res : List (List α)) :
    chunksAux [] st cur res = if cur.isEmpty then res else res ++ [cur] := rfl

theorem chunksAux_cons_true {α : Type} (a : α) (rest : List (α × Bool)) (st : Bool)
    (cur : List α) (res : List (List α)) :
    chunksAux ((a, true) :: rest) st cur res = chunksAux rest true (cur ++ [a]) res := rfl

theorem chunksAux_cons_false_true {α : Type} (a : α) (rest : List (α × Bool))
    (cur : List α) (res : List (List α)) :
    chunksAux ((a, false) :: rest) true cur res = chunksAux rest false [] (res ++ [cur]) := rfl

theorem chunksAux_cons_false_false {α : Type} (a : α) (rest : List (α × Bool))
    (cur : List α) (res : List (List α)) :
    chunksAux ((a, false) :: rest) false cur res = chunksAux rest false cur res := rfl

/-- The `res` accumulator is a passive prefix of the loop's result. -/
theorem chunksAux_append {α : Type} (l : List (α × Bool)) :
    ∀ (st : Bool) (cur : List α) (res : List (List α)),
      chunksAux l st cur res = res ++ chunksAux l st cur [] := by
  induction l with
  | nil =>
    intro st cur res
    rw [chunksAux_nil, chunksAux_nil]
    cases cur <;> simp
  | cons p rest ih =>
    intro st cur res
    obtain ⟨a, cls⟩ := p
    cases cls with
    | true => rw [chunksAux_cons_true, chunksAux_cons_true, ih]
    | false =>
      cases st with
      | true =>
        rw [chunksAux_cons_false_true, chunksAux_cons_false_true,
          ih false [] (res ++ [cur]), ih false [] ([] ++ [cur])]
        simp
      | false => rw [chunksAux_cons_false_false, chunksAux_cons_false_false, ih]

theorem specRuns_false (v : List Bool) :
    specRuns (false :: v) = shiftRuns (specRuns v) := rfl

theorem specRuns_true_nil (v : List Bool) (h : specRuns v = []) :
    specRuns (true :: v) = [(0, 1)] := by
  simp only [specRuns, h, shiftRuns, List.map_nil]

theorem specRuns_true_zero (v : List Bool) (l : Nat) (rest : List (Nat × Nat))
    (h : specRuns v = (0, l) :: rest) :
    specRuns (true :: v) = (0, l + 1) :: shiftRuns rest := by
  simp only [specRuns, h]

theorem specRuns_true_pos (v : List Bool) (s l : Nat) (rest : List (Nat × Nat))
    (h : specRuns v = (s + 1, l) :: rest) :
    specRuns (true :: v) = (0, 1) :: shiftRuns (specRuns v) := by
  simp only [specRuns, h]

theorem map_seg_shiftRuns {α : Type} (x : α) (xs : List α) (rs : List (Nat × Nat)) :
    (shiftRuns rs).map (seg (x :: xs)) = rs.map (seg xs) := by
  induction rs with
  | nil => rfl
  | cons p ps ih =>
    obtain ⟨s, l⟩ := p
    simp only [shiftRuns, List.map_cons, seg, List.drop_succ_cons] at *
    rw [ih]

/-- Master characterization of the scanning loop on a zip: starting in the
clean state it yields exactly the segments selected by the spec-side
maximal true-runs; starting mid-run with accumulated `cur` it completes the
current run first. -/
theorem chunksAux_zip_spec {α : Type} (v : List Bool) :
    ∀ (xs : List α), xs.length = v.length →
      (chunksAux (xs.zip v) false [] [] = (specRuns v).map (seg xs)) ∧
      (∀ cur : List α, cur ≠ [] →
        (specRuns v = [] → chunksAux (xs.zip v) true cur [] = [cur]) ∧
        (∀ l rest, specRuns v = (0, l) :: rest →
          chunksAux (xs.zip v) true cur [] = (cur ++ xs.take l) :: rest.map (seg xs)) ∧
        (∀ s l rest, specRuns v = (s + 1, l) :: rest →
          chunksAux (xs.zip v) true cur [] = cur :: (specRuns v).map (seg xs))) := by
  induction v with
  | nil =>
    intro xs hlen
    rw [List.length_nil, List.length_eq_zero] at hlen
    subst hlen
    refine ⟨rfl, fun cur hcur => ⟨fun _ => ?_, fun l rest h => ?_, fun s l rest h => ?_⟩⟩
    · rw [List.zip_nil_right, chunksAux_nil, if_neg (by simpa using hcur)]
      rfl
    · exact absurd h (by simp [specRuns])
    · exact absurd h (by simp [specRuns])
  | cons b v' ih =>
    intro xs hlen
    match xs with
    | [] => exact absurd hlen (by simp)
    | x :: xs' =>
      have hlen' : xs'.length = v'.length := by simpa using hlen
      obtain ⟨iha, ihb⟩ := ih xs' hlen'
      rw [List.zip_cons_cons]
      cases b with
      | true =>
        constructor
        · -- clean state, vector starts with `true`
          rw [chunksAux_cons_true, List.nil_append]
          rcases hv : specRuns v' with _ | ⟨⟨s, l⟩, rest⟩
          · rw [(ihb [x] (by simp)).1 hv, specRuns_true_nil v' hv]
            simp [seg]
          · cases s with
            | zero =>
              rw [(ihb [x] (by simp)).2.1 l rest hv, specRuns_true_zero v' l rest hv,
                List.map_cons, map_seg_shiftRuns]
              simp [seg]
            | succ s =>
              rw [(ihb [x] (by simp)).2.2 s l rest hv, specRuns_true_pos v' s l rest hv,
                List.map_cons, map_seg_shiftRuns]
              simp [seg]
        · intro cur hcur
          refine ⟨fun h => ?_, fun L Rest h => ?_, fun S L Rest h => ?_⟩
          · -- `specRuns (true :: v')` is never empty
            exfalso
            rcases hv : specRuns v' with _ | ⟨⟨s, l⟩, rest⟩
            · rw [specRuns_true_nil v' hv] at h; exact List.cons_ne_nil _ _ h
            · cases s with
              | zero => rw [specRuns_true_zero v' l rest hv] at h; exact List.cons_ne_nil _ _ h
              | succ s => rw [specRuns_true_pos v' s l rest hv] at h; exact List.cons_ne_nil _ _ h
          · -- head of `specRuns (true :: v')` starts at 0
            rw [chunksAux_cons_true]
            rcases hv : specRuns v' with _ | ⟨⟨s, l⟩, rest⟩
            · rw [specRuns_true_nil v' hv] at h
              obtain ⟨h1, h2⟩ := by simpa using h
              subst h1; subst h2
              rw [(ihb (cur ++ [x]) (by simp)).1 hv]
              simp
            · cases s with
              | zero =>
                rw [specRuns_true_zero v' l rest hv] at h
                obtain ⟨h1, h2⟩ := by simpa using h
                rw [(ihb (cur ++ [x]) (by simp)).2.1 l rest hv, ← h1, ← h2,
                  map_seg_shiftRuns]
                simp [List.append_assoc]
              | succ s =>
                rw [specRuns_true_pos v' s l rest hv] at h
                obtain ⟨h1, h2⟩ := by simpa using h
                rw [(ihb (cur ++ [x]) (by simp)).2.2 s l rest hv, ← h1, ← h2, hv,
                  map_seg_shiftRuns]
                simp [hv]
          · -- head of `specRuns (true :: v')` cannot start positive
            exfalso
            rcases hv : specRuns v' with _ | ⟨⟨s, l⟩, rest⟩
            · rw [specRuns_true_nil v' hv] at h
              simpa using congrArg (fun L => (L.headD (0, 0)).1) h
            · cases s with
              | zero =>
                rw [specRuns_true_zero v' l rest hv] at h
                simpa using congrArg (fun L => (L.headD (0, 0)).1) h
              | succ s =>
                rw [specRuns_true_pos v' s l rest hv] at h
                simpa using congrArg (fun L => (L.headD (0, 0)).1) h
      | false =>
        constructor
        · rw [chunksAux_cons_false_false, iha, specRuns_false, map_seg_shiftRuns]
        · intro cur hcur
          have key : chunksAux ((x, false) :: xs'.zip v') true cur [] =
              cur :: (specRuns v').map (seg xs') := by
            rw [chunksAux_cons_false_true, List.nil_append,
              chunksAux_append (xs'.zip v') false [] [cur], iha]
            rfl
          refine ⟨fun h => ?_, fun L Rest h => ?_, fun S L Rest h => ?_⟩
          · rw [specRuns_false] at h
            have : specRuns v' = [] := by
              simpa [shiftRuns] using h
            rw [key, this]
            rfl
          · -- impossible: every run of `shiftRuns` starts positive
            exfalso
            rw [specRuns_false] at h
            rcases hv : specRuns v' with _ | ⟨⟨s, l⟩, rest⟩
            · rw [hv] at h; simp [shiftRuns] at h
            · rw [hv] at h
              simpa [shiftRuns] using congrArg (fun L => (L.headD (1, 0)).1) h
          · rw [key, specRuns_false, map_seg_shiftRuns]

/-! ### Properties of the spec-side runs -/

/-- Every maximal true-run has positive length. -/
theorem specRuns_pos (v : List Bool) : ∀ p ∈ specRuns v, 0 < p.2 := by
  induction v with
  | nil => intro p hp; exact absurd hp (by simp [specRuns])
  | cons b v' ih =>
    cases b with
    | false =>
      intro p hp
      rw [specRuns_false, shiftRuns] at hp
      obtain ⟨q, hq, rfl⟩ := List.mem_map.mp hp
      simpa using ih q hq
    | true =>
      intro p hp
      rcases hv : specRuns v' with _ | ⟨⟨s, l⟩, rest⟩
      · rw [specRuns_true_nil v' hv] at hp
        simp at hp
        simp [hp]
      · cases s with
        | zero =>
          rw [specRuns_true_zero v' l rest hv] at hp
          rcases List.mem_cons.mp hp with h | h
          · subst h; simp
          · rw [shiftRuns] at h
            obtain ⟨q, hq, rfl⟩ := List.mem_map.mp h
            simpa using ih q (by rw [hv]; exact List.mem_cons_of_mem _ hq)
        | succ s =>
          rw [specRuns_true_pos v' s l rest hv] at hp
          rcases List.mem_cons.mp hp with h | h
          · subst h; simp
          · rw [shiftRuns] at h
            obtain ⟨q, hq, rfl⟩ := List.mem_map.mp h
            simpa using ih q hq

/-- Every maximal true-run lies within the vector's bounds. -/
theorem specRuns_bound (v : List Bool) : ∀ p ∈ specRuns v, p.1 + p.2 ≤ v.length := by
  induction v with
  | nil => intro p hp; exact absurd hp (by simp [specRuns])
  | cons b v' ih =>
    have shiftCase : ∀ p ∈ shiftRuns (specRuns v'), p.1 + p.2 ≤ (b :: v').length := by
      intro p hp
      rw [shiftRuns] at hp
      obtain ⟨q, hq, rfl⟩ := List.mem_map.mp hp
      have h2 := ih q hq
      simp only [List.length_cons]
      change q.1 + 1 + q.2 ≤ v'.length + 1
      omega
    cases b with
    | false =>
      intro p hp
      rw [specRuns_false] at hp
      exact shiftCase p hp
    | true =>
      intro p hp
      rcases hv : specRuns v' with _ | ⟨⟨s, l⟩, rest⟩
      · rw [specRuns_true_nil v' hv] at hp
        simp at hp
        simp [hp]
      · cases s with
        | zero =>
          rw [specRuns_true_zero v' l rest hv] at hp
          rcases List.mem_cons.mp hp with h | h
          · subst h
            have := ih (0, l) (by rw [hv]; exact List.mem_cons_self _ _)
            simp only [List.length_cons]
            omega
          · apply shiftCase
            rw [shiftRuns, hv]
            rw [shiftRuns] at h
            obtain ⟨q, hq, hqe⟩ := List.mem_map.mp h
            exact List.mem_map.mpr ⟨q, List.mem_cons_of_mem _ hq, hqe⟩
        | succ s =>
          rw [specRuns_true_pos v' s l rest hv] at hp
          rcases List.mem_cons.mp hp with h | h
          · subst h
            simp
          · exact shiftCase p h

/-- The runs are listed in strictly increasing order of start index. -/
theorem specRuns_pairwise (v : List Bool) :
    (specRuns v).Pairwise (fun p q => p.1 < q.1) := by
  induction v with
  | nil => simp [specRuns]
  | cons b v' ih =>
    have shiftPw : (shiftRuns (specRuns v')).Pairwise (fun p q => p.1 < q.1) := by
      rw [shiftRuns, List.pairwise_map]
      exact ih.imp (by intro a b h; omega)
    have shiftHead : ∀ p ∈ shiftRuns (specRuns v'), 0 < p.1 := by
      intro p hp
      rw [shiftRuns] at hp
      obtain ⟨q, hq, rfl⟩ := List.mem_map.mp hp
      simp
    cases b with
    | false => rw [specRuns_false]; exact shiftPw
    | true =>
      rcases hv : specRuns v' with _ | ⟨⟨s, l⟩, rest⟩
      · rw [specRuns_true_nil v' hv]
        simp
      · cases s with
        | zero =>
          rw [specRuns_true_zero v' l rest hv]
          refine List.pairwise_cons.mpr ⟨?_, ?_⟩
          · intro q hq
            have : 0 < q.1 := by
              apply shiftHead
              rw [shiftRuns, hv]
              rw [shiftRuns] at hq
              obtain ⟨p, hp, hpe⟩ := List.mem_map.mp hq
              exact List.mem_map.mpr ⟨p, List.mem_cons_of_mem _ hp, hpe⟩
            exact this
          · rw [shiftRuns, List.pairwise_map]
            have : rest.Pairwise (fun p q => p.1 < q.1) := by
              have := ih
              rw [hv] at this
              exact (List.pairwise_cons.mp this).2
            exact this.imp (by intro a b h; omega)
        | succ s =>
          rw [specRuns_true_pos v' s l rest hv]
          refine List.pairwise_cons.mpr ⟨fun q hq => shiftHead q hq, shiftPw⟩

/-- The vector has a `true` entry exactly when it has a maximal true-run. -/
theorem specRuns_eq_nil_iff (v : List Bool) :
    specRuns v = [] ↔ v.contains true = false := by
  induction v with
  | nil => simp [specRuns]
  | cons b v' ih =>
    cases b with
    | false =>
      rw [specRuns_false, shiftRuns]
      simp only [List.map_eq_nil_iff, ih]
      simp
    | true =>
      constructor
      · intro h
        exfalso
        rcases hv : specRuns v' with _ | ⟨⟨s, l⟩, rest⟩
        · rw [specRuns_true_nil v' hv] at h
          exact List.cons_ne_nil _ _ h
        · cases s with
          | zero =>
            rw [specRuns_true_zero v' l rest hv] at h
            exact List.cons_ne_nil _ _ h
          | succ s =>
            rw [specRuns_true_pos v' s l rest hv] at h
            exact List.cons_ne_nil _ _ h
      · intro h
        exact absurd h (by simp)

/-! ### The stable descending sort and the first maximal run -/

theorem insertRunDesc_ne_nil (x : List Nat) (l : List (List Nat)) :
    insertRunDesc x l ≠ [] := by
  cases l with
  | nil => simp [insertRunDesc]
  | cons y ys =>
    rw [insertRunDesc]
    split <;> simp

theorem sortRunsDesc_eq_nil_iff (l : List (List Nat)) :
    sortRunsDesc l = [] ↔ l = [] := by
  cases l with
  | nil => simp [sortRunsDesc]
  | cons x xs =>
    simp only [sortRunsDesc]
    constructor
    · intro h; exact absurd h (insertRunDesc_ne_nil _ _)
    · intro h; exact absurd h (by simp)

theorem head?_insertRunDesc (x : List Nat) (l : List (List Nat)) :
    (insertRunDesc x l).head? =
      some (match l.head? with
            | none => x
            | some y => if y.length ≤ x.length then x else y) := by
  cases l with
  | nil => rfl
  | cons y ys =>
    rw [insertRunDesc]
    by_cases hc : y.length ≤ x.length
    · rw [if_pos hc]
      simp [hc]
    · rw [if_neg hc]
      simp [hc]

/-- The head of the stable descending-by-length sort is the first run of
maximal length. -/
theorem head?_sortRunsDesc (l : List (List Nat)) :
    (sortRunsDesc l).head? = firstMaxRun l := by
  induction l with
  | nil => rfl
  | cons x xs ih =>
    rw [sortRunsDesc, head?_insertRunDesc, firstMaxRun, ← ih]
    rcases h : sortRunsDesc xs with _ | ⟨y, ys⟩
    · rfl
    · simp only [List.head?_cons]
      split <;> rfl

/-- The selected pair is one of the runs. -/
theorem firstMaxPair_mem (l : List (Nat × Nat)) (q : Nat × Nat)
    (h : firstMaxPair l = some q) : q ∈ l := by
  induction l generalizing q with
  | nil => exact absurd h (by simp [firstMaxPair])
  | cons r rs ih =>
    rw [firstMaxPair] at h
    rcases h2 : firstMaxPair rs with _ | q2 <;> rw [h2] at h
    · simp only [Option.some.injEq] at h
      simp [h]
    · simp only at h
      split at h
      · simp only [Option.some.injEq] at h
        simp [h]
      · simp only [Option.some.injEq] at h
        subst h
        exact List.mem_cons_of_mem _ (ih _ h2)

/-- The selection `firstMaxRun` commutes with mapping a length-preserving function over
the runs. -/
theorem firstMaxRun_map (f : Nat × Nat → List Nat) (rs : List (Nat × Nat))
    (hf : ∀ p ∈ rs, (f p).length = p.2) :
    firstMaxRun (rs.map f) = Option.map f (firstMaxPair rs) := by
  induction rs with
  | nil => rfl
  | cons p ps ih =>
    have hp : (f p).length = p.2 := hf p (List.mem_cons_self _ _)
    have ihs := ih (fun q hq => hf q (List.mem_cons_of_mem _ hq))
    rw [List.map_cons, firstMaxRun, ihs, firstMaxPair]
    rcases h : firstMaxPair ps with _ | q
    · rfl
    · have hq : (f q).length = q.2 :=
        hf q (List.mem_cons_of_mem _ (firstMaxPair_mem ps q h))
    -- compare the two selections branch by branch
      simp only [Option.map_some', hp, hq]
      split <;> simp

/-- The selected pair has maximal length among the runs. -/
theorem firstMaxPair_max (l : List (Nat × Nat)) (q : Nat × Nat)
    (h : firstMaxPair l = some q) : ∀ p ∈ l, p.2 ≤ q.2 := by
  induction l generalizing q with
  | nil => simp
  | cons r rs ih =>
    rw [firstMaxPair] at h
    rcases h2 : firstMaxPair rs with _ | q2 <;> rw [h2] at h
    · have : rs = [] := by
        cases rs with
        | nil => rfl
        | cons a as =>
          rw [firstMaxPair] at h2
          rcases h3 : firstMaxPair as with _ | q3 <;> rw [h3] at h2
          · exact absurd h2 (by simp)
          · simp only at h2
            split at h2 <;> exact absurd h2 (by simp)
      subst this
      simp only [Option.some.injEq] at h
      subst h
      simp
    · simp only at h
      split at h <;> simp only [Option.some.injEq] at h <;> subst h
      · intro p hp
        rcases List.mem_cons.mp hp with hh | hh
        · subst hh; exact le_refl _
        · have := ih q2 h2 p hh
          omega
      · intro p hp
        rcases List.mem_cons.mp hp with hh | hh
        · subst hh; omega
        · exact ih q2 h2 p hh

/-- Among runs with strictly increasing start indices, the selected pair has
the least start index of all runs attaining the maximal length. -/
theorem firstMaxPair_earliest (l : List (Nat × Nat))
    (hpw : l.Pairwise (fun p q => p.1 < q.1)) (q : Nat × Nat)
    (h : firstMaxPair l = some q) : ∀ p ∈ l, p.2 = q.2 → q.1 ≤ p.1 := by
  induction l generalizing q with
  | nil => simp
  | cons r rs ih =>
    obtain ⟨hr, hpw2⟩ := List.pairwise_cons.mp hpw
    rw [firstMaxPair] at h
    rcases h2 : firstMaxPair rs with _ | q2 <;> rw [h2] at h
    · simp only [Option.some.injEq] at h
      subst h
      intro p hp _
      rcases List.mem_cons.mp hp with hh | hh
      · subst hh; exact le_refl _
      · exact le_of_lt (hr p hh)
    · simp only at h
      split at h <;> simp only [Option.some.injEq] at h <;> subst h
      · intro p hp _
        rcases List.mem_cons.mp hp with hh | hh
        · subst hh; exact le_refl _
        · exact le_of_lt (hr p hh)
      · intro p hp hlen
        rcases List.mem_cons.mp hp with hh | hh
        · subst hh
          omega
        · exact ih hpw2 q2 h2 p hh hlen

theorem firstMaxPair_eq_none_iff (l : List (Nat × Nat)) :
    firstMaxPair l = none ↔ l = [] := by
  cases l with
  | nil => simp [firstMaxPair]
  | cons p ps =>
    rw [firstMaxPair]
    rcases h : firstMaxPair ps with _ | q
    · simp
    · simp only []
      split <;> simp

/-! ### The embedded extraction functions in terms of the spec-side runs -/

theorem seg_length {α : Type} (xs : List α) (p : Nat × Nat) (h : p.1 + p.2 ≤ xs.length) :
    (seg xs p).length = p.2 := by
  simp only [seg, List.length_take, List.length_drop]
  omega

/-- The method `get_extracted` returns exactly the token segments of the maximal
true-runs of the classification vector. -/
theorem get_extracted_eq (r : Record) (h : r.record.length = r.preclassified.length) :
    get_extracted r = (specRuns r.preclassified).map (seg r.record) :=
  (chunksAux_zip_spec r.preclassified r.record h).1

/-- The method `get_fingerprint` returns exactly the lengths of the maximal true-runs
of the classification vector. -/
theorem get_fingerprint_eq (r : Record) (h : r.record.length = r.preclassified.length) :
    get_fingerprint r = (specRuns r.preclassified).map Prod.snd := by
  rw [get_fingerprint, get_extracted_eq r h, List.map_map]
  apply List.map_congr_left
  intro p hp
  have hb := specRuns_bound r.preclassified p hp
  simp only [Function.comp_apply]
  exact seg_length r.record p (by omega)

theorem seg_range_headD (n : Nat) (p : Nat × Nat) (h1 : p.1 + p.2 ≤ n) (h2 : 0 < p.2) :
    (seg (List.range n) p).headD 0 = p.1 := by
  rw [List.headD_eq_head?, List.head?_eq_getElem?, seg, List.getElem?_take, if_pos h2,
    List.getElem?_drop, List.getElem?_range (by omega)]
  rfl

theorem seg_range_getLastD (n : Nat) (p : Nat × Nat) (h1 : p.1 + p.2 ≤ n) (h2 : 0 < p.2) :
    (seg (List.range n) p).getLastD 0 = p.1 + p.2 - 1 := by
  have hlen : (seg (List.range n) p).length = p.2 :=
    seg_length (List.range n) p (by rw [List.length_range]; omega)
  rw [List.getLastD_eq_getLast?, List.getLast?_eq_getElem?, hlen, seg, List.getElem?_take,
    if_pos (by omega), List.getElem?_drop, List.getElem?_range (by omega)]
  simp only [Option.getD_some]
  omega

/-- The method `get_longest_range` selects the first maximal true-run of greatest
length and returns it as a half-open index range. -/
theorem get_longest_range_eq (r : Record) :
    get_longest_range r =
      Option.map (fun p => (p.1, p.1 + p.2)) (firstMaxPair (specRuns r.preclassified)) := by
  have hlen : (List.range r.preclassified.length).length = r.preclassified.length :=
    List.length_range _
  have hchunks := (chunksAux_zip_spec r.preclassified (List.range r.preclassified.length) hlen).1
  have hf : ∀ p ∈ specRuns r.preclassified,
      (seg (List.range r.preclassified.length) p).length = p.2 := by
    intro p hp
    exact seg_length _ p (by rw [List.length_range]; exact specRuns_bound _ p hp)
  rw [get_longest_range]
  rcases hs : sortRunsDesc (chunksAux
      ((List.range r.preclassified.length).zip r.preclassified) false [] []) with _ | ⟨c, cs⟩
  · have h1 : chunksAux ((List.range r.preclassified.length).zip r.preclassified) false [] []
        = [] := (sortRunsDesc_eq_nil_iff _).mp hs
    rw [hchunks, List.map_eq_nil_iff] at h1
    rw [h1]
    rfl
  · have h1 : some c = firstMaxRun ((specRuns r.preclassified).map
        (seg (List.range r.preclassified.length))) := by
      rw [← hchunks, ← head?_sortRunsDesc, hs]
      rfl
    rw [firstMaxRun_map _ _ hf] at h1
    rcases hq : firstMaxPair (specRuns r.preclassified) with _ | q
    · rw [hq] at h1
      exact absurd h1.symm (by simp)
    · rw [hq] at h1
      simp only [Option.map_some', Option.some.injEq] at h1
      have hmem := firstMaxPair_mem _ q hq
      have hb := specRuns_bound r.preclassified q hmem
      have hp := specRuns_pos r.preclassified q hmem
      rw [h1]
      show some ((seg (List.range r.preclassified.length) q).headD 0,
          (seg (List.range r.preclassified.length) q).getLastD 0 + 1) =
        Option.map (fun p => (p.1, p.1 + p.2)) (some q)
      rw [Option.map_some', seg_range_headD _ q hb hp, seg_range_getLastD _ q hb hp]
      have h3 : q.1 + q.2 - 1 + 1 = q.1 + q.2 := by omega
      rw [h3]

/-- The method `get_longest_range` returns `none` exactly on an all-false vector. -/
theorem get_longest_range_eq_none_iff (r : Record) :
    get_longest_range r = none ↔ r.preclassified.contains true = false := by
  rw [get_longest_range_eq]
  rcases h : firstMaxPair (specRuns r.preclassified) with _ | q
  · rw [firstMaxPair_eq_none_iff, specRuns_eq_nil_iff] at h
    simpa using h
  · have hne1 : specRuns r.preclassified ≠ [] := by
      intro hc
      rw [hc] at h
      exact absurd h (by simp [firstMaxPair])
    have hne : ¬ r.preclassified.contains true = false := by
      intro hc
      rw [← specRuns_eq_nil_iff] at hc
      exact hne1 hc
    have hmem : true ∈ r.preclassified := by
      cases hcc : r.preclassified.contains true with
      | false => exact absurd hcc hne
      | true => simpa using hcc
    simp [hmem]

/-! ### `pyMax` is the maximum -/

theorem foldl_max_facts (xs : List Nat) :
    ∀ x : Nat, x ≤ xs.foldl max x ∧ (∀ y ∈ xs, y ≤ xs.foldl max x) ∧
      (xs.foldl max x = x ∨ xs.foldl max x ∈ xs) := by
  induction xs with
  | nil => intro x; exact ⟨le_refl _, by simp, Or.inl rfl⟩
  | cons y ys ih =>
    intro x
    obtain ⟨ih1, ih2, ih3⟩ := ih (max x y)
    refine ⟨le_trans (le_max_left x y) ih1, ?_, ?_⟩
    · intro z hz
      rcases List.mem_cons.mp hz with hh | hh
      · rw [hh]
        exact le_trans (le_max_right x y) ih1
      · exact ih2 z hh
    · rw [List.foldl_cons]
      rcases ih3 with hh | hh
      · rcases max_choice x y with hc | hc
        · rw [hh, hc]
          exact Or.inl rfl
        · rw [hh, hc]
          exact Or.inr (List.mem_cons_self _ _)
      · exact Or.inr (List.mem_cons_of_mem _ hh)

theorem le_pyMax (l : List Nat) : ∀ x ∈ l, x ≤ pyMax l := by
  cases l with
  | nil => simp
  | cons x xs =>
    intro y hy
    rw [pyMax]
    rcases List.mem_cons.mp hy with hh | hh
    · subst hh
      exact (foldl_max_facts xs y).1
    · exact (foldl_max_facts xs x).2.1 y hh

theorem pyMax_mem (l : List Nat) (h : l ≠ []) : pyMax l ∈ l := by
  cases l with
  | nil => exact absurd rfl h
  | cons x xs =>
    rw [pyMax]
    rcases (foldl_max_facts xs x).2.2 with hh | hh
    · rw [hh]
      exact List.mem_cons_self _ _
    · exact List.mem_cons_of_mem _ hh

theorem pyMax_ge_iff (l : List Nat) (h : l ≠ []) (k : Nat) :
    k ≤ pyMax l ↔ ∃ x ∈ l, k ≤ x := by
  constructor
  · intro hk
    exact ⟨pyMax l, pyMax_mem l h, hk⟩
  · rintro ⟨x, hx, hk⟩
    exact le_trans hk (le_pyMax l x hx)

/-! ### Properties of the fingerprint classification -/

/-- The fingerprint class gates name extraction exactly when the maximum
run length is at least 3. -/
theorem classify_mem_iff (fp : List Nat) :
    FingerprintClass.classify_fingerprint fp ∈
      [FingerprintClass.IDEAL, FingerprintClass.COMPLICATED,
       FingerprintClass.ALMOST_IDEAL, FingerprintClass.COMPLICATED_AND_STRANGE] ↔
    fp ≠ [] ∧ 3 ≤ pyMax fp := by
  have hne : fp.length ≠ 0 → fp ≠ [] := by
    intro h hc
    exact h (by simp [hc])
  rw [FingerprintClass.classify_fingerprint]
  split_ifs with h1 h2 h3 h4 h5 h6 h7
  · refine iff_of_false (by decide) ?_
    rw [List.length_eq_zero] at h1
    simp [h1]
  · exact iff_of_true (by decide) ⟨hne h1, by omega⟩
  · exact iff_of_true (by decide) ⟨hne h1, by omega⟩
  · exact iff_of_true (by decide) ⟨hne h1, by omega⟩
  · exact iff_of_true (by decide) ⟨hne h1, by omega⟩
  · refine iff_of_false (by decide) ?_
    rintro ⟨-, hk⟩
    omega
  · refine iff_of_false (by decide) ?_
    rintro ⟨-, hk⟩
    omega
  · refine iff_of_false (by decide) ?_
    rintro ⟨-, hk⟩
    omega

/-- On fingerprints of positive run lengths the defensive `JUNK` fallback
is unreachable. -/
theorem classify_ne_JUNK (fp : List Nat) (h : ∀ x ∈ fp, 0 < x) :
    FingerprintClass.classify_fingerprint fp ≠ FingerprintClass.JUNK := by
  by_cases h0 : fp = []
  · subst h0
    simp [FingerprintClass.classify_fingerprint]
  · have hM : 0 < pyMax fp := h _ (pyMax_mem fp h0)
    rw [FingerprintClass.classify_fingerprint]
    split_ifs with h1 h2 h3 h4 h5 h6 h7
    all_goals first
    | decide
    | omega

theorem pyMax_singleton (x : Nat) : pyMax [x] = x := rfl

/-- The source's classification agrees with the rule table in which rules 3
and 5 test the maximum run length. -/
theorem classify_eq_amended (fp : List Nat) :
    FingerprintClass.classify_fingerprint fp = amendedClassifyTable fp := by
  match fp with
  | [] => rfl
  | [x] =>
    by_cases hx3 : x = 3
    · subst hx3
      decide
    · by_cases hx4 : 3 < x
      · simp [FingerprintClass.classify_fingerprint, amendedClassifyTable,
          pyMax_singleton, hx3, hx4]
      · have hub : x ≤ 2 := by omega
        interval_cases x <;> decide
  | x :: y :: rest =>
    have hlen : ¬ (x :: y :: rest).length = 1 := by simp
    have hne : ¬ x :: y :: rest = [3] := by
      intro hc
      exact absurd (congrArg List.length hc) (by simp)
    by_cases hM3 : pyMax (x :: y :: rest) = 3
    · simp [FingerprintClass.classify_fingerprint, amendedClassifyTable, hM3, hlen, hne]
    · by_cases hM4 : 3 < pyMax (x :: y :: rest)
      · simp [FingerprintClass.classify_fingerprint, amendedClassifyTable, hM3, hM4,
          hlen, hne]
      · by_cases hM1 : pyMax (x :: y :: rest) = 1
        · simp [FingerprintClass.classify_fingerprint, amendedClassifyTable, hM3, hM4,
            hM1, hlen, hne]
        · by_cases hM2 : pyMax (x :: y :: rest) = 2
          · simp [FingerprintClass.classify_fingerprint, amendedClassifyTable, hM3, hM4,
              hM1, hM2, hlen, hne]
          · simp [FingerprintClass.classify_fingerprint, amendedClassifyTable, hM3, hM4,
              hM1, hM2, hlen, hne]

/-! ### Characterizing the parser's steps -/

theorem pyGet_natCast (l : List String) (n : Nat) (h : n < l.length) :
    pyGet l (n : Int) = some (l.getD n "") := by
  simp only [pyGet]
  rw [if_pos (by omega)]
  have ht : (n : Int).toNat = n := by omega
  rw [ht, List.getD_eq_getElem?_getD, List.getElem?_eq_getElem h]
  rfl

theorem pyGet_neg_one (l : List String) (h : 1 ≤ l.length) :
    pyGet l (-1) = some (l.getD (l.length - 1) "") := by
  simp only [pyGet]
  rw [if_neg (by omega), if_pos (by omega)]
  have ht : ((l.length : Int) + (-1)).toNat = l.length - 1 := by omega
  rw [ht, List.getD_eq_getElem?_getD, List.getElem?_eq_getElem (by omega)]
  rfl

theorem addressStep_at_end (founder : List String) (k : Nat) (h : ¬ k < founder.length) :
    addressStep founder k = some ([], []) := by
  simp only [addressStep]
  rw [if_neg h]

/-- The classification vectors built by `parse_founders_record` pair each
token with its gazetteer bit, so the fingerprint is the run-length list of
the spec-side maximal true-runs. -/
theorem fingerprint_map (f : String → Bool) (founder : List String) :
    get_fingerprint ⟨founder, founder.map f⟩ = (specRuns (founder.map f)).map Prod.snd :=
  get_fingerprint_eq _ (by simp)

theorem glr_some_of_runs_ne_nil (r : Record) (h : specRuns r.preclassified ≠ []) :
    ∃ q, firstMaxPair (specRuns r.preclassified) = some q ∧
      get_longest_range r = some (q.1, q.1 + q.2) := by
  rcases hq : firstMaxPair (specRuns r.preclassified) with _ | q
  · rw [firstMaxPair_eq_none_iff] at hq
    exact absurd hq h
  · refine ⟨q, rfl, ?_⟩
    rw [get_longest_range_eq, hq]
    rfl

/-- When the fingerprint class does not license name extraction, the name
step yields no name. -/
theorem nameStep_not_licensed (f : String → Bool) (founder : List String)
    (h : FingerprintClass.classify_fingerprint
        (get_fingerprint ⟨founder, founder.map f⟩) ∉
      [FingerprintClass.IDEAL, FingerprintClass.COMPLICATED,
       FingerprintClass.ALMOST_IDEAL, FingerprintClass.COMPLICATED_AND_STRANGE]) :
    nameStep f founder = some ([], []) := by
  simp only [nameStep]
  rw [if_neg h]

/-- When the fingerprint class licenses name extraction, the name step
joins the tokens of the longest run. -/
theorem nameStep_licensed (f : String → Bool) (founder : List String)
    (h : FingerprintClass.classify_fingerprint
        (get_fingerprint ⟨founder, founder.map f⟩) ∈
      [FingerprintClass.IDEAL, FingerprintClass.COMPLICATED,
       FingerprintClass.ALMOST_IDEAL, FingerprintClass.COMPLICATED_AND_STRANGE]) :
    ∃ s e, get_longest_range ⟨founder, founder.map f⟩ = some (s, e) ∧
      nameStep f founder =
        some ([String.intercalate " " ((founder.drop s).take (e - s))], [(s, e)]) := by
  have hfp : get_fingerprint ⟨founder, founder.map f⟩ ≠ [] := by
    intro hc
    rw [hc] at h
    exact absurd h (by decide)
  rw [fingerprint_map] at hfp
  have hruns : specRuns (founder.map f) ≠ [] := by
    intro hc
    exact hfp (by rw [hc]; rfl)
  obtain ⟨q, hq, hglr⟩ := glr_some_of_runs_ne_nil ⟨founder, founder.map f⟩ hruns
  refine ⟨q.1, q.1 + q.2, hglr, ?_⟩
  simp only [nameStep]
  rw [if_pos h, hglr]
  rfl

/-- The address step always succeeds (never raises), and returns at most
one address with exactly one range per address. -/
theorem addressStep_isSome (founder : List String) (k : Nat) :
    ∃ a rng, addressStep founder k = some (a, rng) ∧
      a.length ≤ 1 ∧ rng.length = a.length := by
  by_cases hk : k < founder.length
  · simp only [addressStep]
    rw [if_pos hk, pyGet_natCast founder k hk]
    simp only [Option.some_bind]
    have hlen1 : 1 ≤ founder.length := by omega
    set aEnd : Int := if founder.contains "розмір" then (List.indexOf "розмір" founder : Int)
      else (founder.length : Int) with haEnd
    have haEnd_le : aEnd ≤ (founder.length : Int) := by
      rw [haEnd]
      split
      · next hc =>
        have := List.indexOf_lt_length.mpr (by simpa using hc)
        omega
      · omega
    have haEnd_nonneg : 0 ≤ aEnd := by
      rw [haEnd]
      split <;> omega
    have hsome : ∃ t, pyGet founder (aEnd - 1) = some t := by
      by_cases h0 : aEnd = 0
      · rw [h0]
        exact ⟨_, pyGet_neg_one founder hlen1⟩
      · have hcast : aEnd - 1 = ((aEnd.toNat - 1 : Nat) : Int) := by omega
        rw [hcast]
        exact ⟨_, pyGet_natCast founder _ (by omega)⟩
    obtain ⟨t, ht⟩ := hsome
    rw [ht]
    simp only [Option.some_bind]
    by_cases hlt : (if pyInStr (founder.getD k "") punctChars then (k : Int) + 1 else (k : Int)) <
        (if pyInStr t punctChars then aEnd - 1 else aEnd)
    · rw [if_pos hlt]
      exact ⟨_, _, rfl, by simp, by simp⟩
    · rw [if_neg hlt]
      exact ⟨[], [], rfl, by simp, by simp⟩
  · exact ⟨[], [], by rw [addressStep_at_end founder k hk], by simp, by simp⟩

/-- The name step returns at most one name with exactly one range per name. -/
theorem nameStep_len (f : String → Bool) (founder : List String)
    (names : List String) (rng : List (Nat × Nat))
    (h : nameStep f founder = some (names, rng)) :
    names.length ≤ 1 ∧ rng.length = names.length := by
  by_cases hcls : FingerprintClass.classify_fingerprint
      (get_fingerprint ⟨founder, founder.map f⟩) ∈
      [FingerprintClass.IDEAL, FingerprintClass.COMPLICATED,
       FingerprintClass.ALMOST_IDEAL, FingerprintClass.COMPLICATED_AND_STRANGE]
  · obtain ⟨s, e, hglr, h2⟩ := nameStep_licensed f founder hcls
    rw [h] at h2
    simp only [Option.some.injEq, Prod.mk.injEq] at h2
    obtain ⟨h3, h4⟩ := h2
    subst h3
    subst h4
    simp
  · have h2 := nameStep_not_licensed f founder hcls
    rw [h] at h2
    simp only [Option.some.injEq, Prod.mk.injEq] at h2
    obtain ⟨h3, h4⟩ := h2
    subst h3
    subst h4
    simp

/-- Full case analysis of `parse_founders_record`: the parser always
succeeds, with the country/address part determined by the country
fingerprint's shape test. -/
theorem parse_cases (f g : String → Bool) (founder : List String) :
    ∃ names name_rng, nameStep f founder = some (names, name_rng) ∧
      ((get_fingerprint ⟨founder, founder.map g⟩ ∉ ([[1], [2], [3]] : List (List Nat)) ∧
        parse_founders_record f g founder = some ⟨names, [], [], name_rng, [], []⟩) ∨
       (get_fingerprint ⟨founder, founder.map g⟩ ∈ ([[1], [2], [3]] : List (List Nat)) ∧
        ∃ s e addr arng,
          get_longest_range ⟨founder, founder.map g⟩ = some (s, e) ∧
          addressStep founder e = some (addr, arng) ∧
          parse_founders_record f g founder =
            some ⟨names, [String.intercalate " " ((founder.drop s).take (e - s))], addr,
                  name_rng, [(s, e)], arng⟩)) := by
  have hns : ∃ names name_rng, nameStep f founder = some (names, name_rng) := by
    by_cases hcls : FingerprintClass.classify_fingerprint
        (get_fingerprint ⟨founder, founder.map f⟩) ∈
        [FingerprintClass.IDEAL, FingerprintClass.COMPLICATED,
         FingerprintClass.ALMOST_IDEAL, FingerprintClass.COMPLICATED_AND_STRANGE]
    · obtain ⟨s, e, _, h2⟩ := nameStep_licensed f founder hcls
      exact ⟨_, _, h2⟩
    · exact ⟨_, _, nameStep_not_licensed f founder hcls⟩
  obtain ⟨names, name_rng, hns⟩ := hns
  refine ⟨names, name_rng, hns, ?_⟩
  by_cases hshape : get_fingerprint ⟨founder, founder.map g⟩ ∈ ([[1], [2], [3]] : List (List Nat))
  · right
    have hfpn : get_fingerprint ⟨founder, founder.map g⟩ ≠ [] := by
      rcases (by simpa using hshape : get_fingerprint ⟨founder, founder.map g⟩ = [1] ∨
          get_fingerprint ⟨founder, founder.map g⟩ = [2] ∨
          get_fingerprint ⟨founder, founder.map g⟩ = [3]) with hc | hc | hc <;>
        simp [hc]
    rw [fingerprint_map] at hfpn
    have hruns : specRuns (founder.map g) ≠ [] := by
      intro hc
      exact hfpn (by rw [hc]; rfl)
    obtain ⟨q, hq, hglr⟩ := glr_some_of_runs_ne_nil ⟨founder, founder.map g⟩ hruns
    obtain ⟨addr, arng, hast, -, -⟩ := addressStep_isSome founder (q.1 + q.2)
    refine ⟨hshape, q.1, q.1 + q.2, addr, arng, hglr, hast, ?_⟩
    simp only [parse_founders_record]
    rw [hns]
    simp only [Option.some_bind]
    rw [if_pos hshape, hglr]
    simp only [Option.some_bind]
    rw [hast]
    rfl
  · left
    refine ⟨hshape, ?_⟩
    simp only [parse_founders_record]
    rw [hns]
    simp only [Option.some_bind]
    rw [if_neg hshape]

/-- On the inputs it is actually invoked on (`1 ≤ k < founder.length`,
since `k` is the exclusive end of a country run), the embedded address
derivation computes exactly the amended claim-side address of
`specAddress`, with one range entry per reported address. -/
theorem addressStep_spec (founder : List String) (k : Nat) (hk1 : 1 ≤ k)
    (hk2 : k < founder.length) :
    ∃ rng, addressStep founder k = some (specAddress founder k, rng) ∧
      rng.length = (specAddress founder k).length := by
  have hlen1 : 1 ≤ founder.length := by omega
  simp only [addressStep, specAddress]
  rw [if_pos hk2, pyGet_natCast founder k hk2]
  simp only [Option.some_bind]
  have hEnd : (if founder.contains "розмір" then (List.indexOf "розмір" founder : Int)
      else (founder.length : Int)) =
      (((if founder.contains "розмір" then List.indexOf "розмір" founder
         else founder.length) : Nat) : Int) := by
    split <;> rfl
  rw [hEnd]
  set m : Nat := if founder.contains "розмір" then List.indexOf "розмір" founder
    else founder.length with hm
  have hmle : m ≤ founder.length := by
    rw [hm]
    split
    · next hc =>
      exact le_of_lt (List.indexOf_lt_length.mpr (by simpa using hc))
    · exact le_refl _
  by_cases hm0 : m = 0
  · rw [hm0]
    have hneg : ((0 : Nat) : Int) - 1 = -1 := by omega
    rw [hneg, pyGet_neg_one founder hlen1]
    simp only [Option.some_bind]
    split_ifs <;> first
    | exact ⟨[], rfl, rfl⟩
    | (exfalso; omega)
  · have hcast : ((m : Nat) : Int) - 1 = (((m - 1 : Nat)) : Int) := by omega
    rw [hcast, pyGet_natCast founder (m - 1) (by omega)]
    simp only [Option.some_bind]
    have ha : ((if pyInStr (founder.getD k "") punctChars then k + 1 else k : Nat) : Int) =
        (if pyInStr (founder.getD k "") punctChars then (k : Int) + 1 else (k : Int)) := by
      split <;> simp
    have htn : (if pyInStr (founder.getD k "") punctChars then (k : Int) + 1
        else (k : Int)).toNat =
        (if pyInStr (founder.getD k "") punctChars then k + 1 else k : Nat) := by
      split <;> omega
    rw [ha, htn]
    split_ifs <;> exact ⟨_, rfl, by simp⟩

/-- A span returned by `get_longest_range` is non-degenerate and within the
vector's bounds. -/
theorem glr_bounds (r : Record) (s e : Nat) (h : get_longest_range r = some (s, e)) :
    s < e ∧ e ≤ r.preclassified.length := by
  rw [get_longest_range_eq] at h
  rcases hq : firstMaxPair (specRuns r.preclassified) with _ | q <;> rw [hq] at h
  · exact absurd h (by simp)
  · simp only [Option.map_some', Option.some.injEq, Prod.mk.injEq] at h
    obtain ⟨h1, h2⟩ := h
    have hmem := firstMaxPair_mem _ q hq
    have hpos := specRuns_pos r.preclassified q hmem
    have hbd := specRuns_bound r.preclassified q hmem
    omega

/-- The run selected by `firstMaxPair` realizes the `pyMax` of the
run-length list. -/
theorem pyMax_map_snd_eq (rs : List (Nat × Nat)) (q : Nat × Nat)
    (h : firstMaxPair rs = some q) : pyMax (rs.map Prod.snd) = q.2 := by
  have hne : rs ≠ [] := by
    intro hc
    rw [hc] at h
    exact absurd h (by simp [firstMaxPair])
  have h1 : q.2 ≤ pyMax (rs.map Prod.snd) :=
    le_pyMax _ _ (List.mem_map.mpr ⟨q, firstMaxPair_mem _ q h, rfl⟩)
  have h2 : pyMax (rs.map Prod.snd) ∈ rs.map Prod.snd :=
    pyMax_mem _ (by simpa using hne)
  obtain ⟨p, hp, hpe⟩ := List.mem_map.mp h2
  have h3 := firstMaxPair_max rs q h p hp
  omega

/-- The name gate (`FingerprintClass` membership) holds exactly when some
maximal true-run has length at least 3. -/
theorem licensed_iff_long_run (f : String → Bool) (founder : List String) :
    FingerprintClass.classify_fingerprint
        (get_fingerprint ⟨founder, founder.map f⟩) ∈
      [FingerprintClass.IDEAL, FingerprintClass.COMPLICATED,
       FingerprintClass.ALMOST_IDEAL, FingerprintClass.COMPLICATED_AND_STRANGE] ↔
    ∃ p ∈ specRuns (founder.map f), 3 ≤ p.2 := by
  rw [classify_mem_iff, fingerprint_map]
  constructor
  · rintro ⟨hne, hmax⟩
    have hne2 : specRuns (founder.map f) ≠ [] := by
      intro hc
      exact hne (by rw [hc]; rfl)
    obtain ⟨x, hx, h3⟩ := (pyMax_ge_iff _ hne 3).mp hmax
    obtain ⟨p, hp, hpe⟩ := List.mem_map.mp hx
    exact ⟨p, hp, by omega⟩
  · rintro ⟨p, hp, h3⟩
    have hne : (specRuns (founder.map f)).map Prod.snd ≠ [] := by
      simp only [Ne, List.map_eq_nil_iff]
      intro hc
      rw [hc] at hp
      exact absurd hp (by simp)
    exact ⟨hne, le_trans h3 (le_pyMax _ _ (List.mem_map.mpr ⟨p, hp, rfl⟩))⟩

/-- A run-length list that is a singleton comes from a single run. -/
theorem map_snd_singleton (rs : List (Nat × Nat)) (k : Nat)
    (h : rs.map Prod.snd = [k]) : ∃ s, rs = [(s, k)] := by
  match rs with
  | [] => exact absurd h (by simp)
  | [p] =>
    simp only [List.map_cons, List.map_nil, List.cons.injEq, and_true] at h
    exact ⟨p.1, by rw [← h]⟩
  | p :: p2 :: rest => exact absurd h (by simp)

/-! ### The claims -/

/-- C1: for every classification vector, `get_fingerprint` returns exactly
the ordered list of lengths of the maximal contiguous `true`-runs, runs of
`false` contributing nothing; the empty and every all-false vector yield
the empty fingerprint. -/
theorem C1_fingerprint_runs (r : Record)
    (h : r.record.length = r.preclassified.length) :
    get_fingerprint r = (specRuns r.preclassified).map Prod.snd ∧
    (r.preclassified.contains true = false → get_fingerprint r = []) := by
  refine ⟨get_fingerprint_eq r h, fun hall => ?_⟩
  rw [get_fingerprint_eq r h, (specRuns_eq_nil_iff _).mpr hall]
  rfl

theorem C1_fingerprint_runs_witness :
    (get_fingerprint ⟨["a", "b", "c", "d", "e", "f", "g"],
        [false, true, true, false, true, true, true]⟩ =
      (specRuns [false, true, true, false, true, true, true]).map Prod.snd ∧
     (([false, true, true, false, true, true, true] : List Bool).contains true = false →
       get_fingerprint ⟨["a", "b", "c", "d", "e", "f", "g"],
         [false, true, true, false, true, true, true]⟩ = [])) ∧
    get_fingerprint ⟨["a", "b", "c", "d", "e", "f", "g"],
        [false, true, true, false, true, true, true]⟩ = [2, 3] :=
  ⟨C1_fingerprint_runs _ (by decide), by decide⟩

/-- C2: on a vector with at least one `true`, `get_longest_range` returns
the half-open range `[s, s + l)` of a maximal true-run of greatest length
`l`, the earliest such run on ties; on an all-false vector it returns
`none`. -/
theorem C2_longest_range (r : Record) :
    (r.preclassified.contains true = true →
      ∃ s l, (s, l) ∈ specRuns r.preclassified ∧
        get_longest_range r = some (s, s + l) ∧
        (∀ q ∈ specRuns r.preclassified, q.2 ≤ l) ∧
        (∀ q ∈ specRuns r.preclassified, q.2 = l → s ≤ q.1)) ∧
    (r.preclassified.contains true = false → get_longest_range r = none) := by
  constructor
  · intro hc
    have hruns : specRuns r.preclassified ≠ [] := by
      rw [Ne, specRuns_eq_nil_iff, hc]
      simp
    obtain ⟨q, hq, hglr⟩ := glr_some_of_runs_ne_nil r hruns
    exact ⟨q.1, q.2, firstMaxPair_mem _ q hq, hglr,
      firstMaxPair_max _ q hq,
      fun p hp he => firstMaxPair_earliest _ (specRuns_pairwise _) q hq p hp he⟩
  · intro hc
    rw [get_longest_range_eq_none_iff]
    exact hc

theorem C2_longest_range_witness :
    (∃ s l, (s, l) ∈ specRuns [true, true, false, true, true, true, false] ∧
      get_longest_range ⟨["a", "b", "c", "d", "e", "f", "g"],
          [true, true, false, true, true, true, false]⟩ = some (s, s + l) ∧
      (∀ q ∈ specRuns [true, true, false, true, true, true, false], q.2 ≤ l) ∧
      (∀ q ∈ specRuns [true, true, false, true, true, true, false], q.2 = l → s ≤ q.1)) ∧
    get_longest_range ⟨["a"], [false]⟩ = none :=
  ⟨(C2_longest_range ⟨["a", "b", "c", "d", "e", "f", "g"],
      [true, true, false, true, true, true, false]⟩).1 (by decide),
   (C2_longest_range ⟨["a"], [false]⟩).2 (by decide)⟩

/-- C3, counterexample: the claim's rule table, read literally ("any run of
length exactly 3, with multiple runs, → ALMOST_IDEAL" before the `> 3`
rules), classifies the producible fingerprint `(3, 4)` as `ALMOST_IDEAL`,
but the code compares the *maximum* run length against 3 and returns
`COMPLICATED_AND_STRANGE` there. -/
theorem C3_counterexample :
    FingerprintClass.classify_fingerprint [3, 4] =
      FingerprintClass.COMPLICATED_AND_STRANGE ∧
    specClassifyTable [3, 4] = FingerprintClass.ALMOST_IDEAL ∧
    FingerprintClass.classify_fingerprint [3, 4] ≠ specClassifyTable [3, 4] ∧
    get_fingerprint ⟨["a", "b", "c", "d", "e", "f", "g", "h"],
        [true, true, true, false, true, true, true, true]⟩ = [3, 4] := by
  refine ⟨by decide, by decide, by decide, by decide⟩

/-- C3, amended: `classify_fingerprint` computes the rule table in which
rules 3 and 5 test the *maximum* run length (exactly 3, resp. greater
than 3); all seven concrete classification examples of the claim hold. -/
theorem C3_amended_rule_table :
    (∀ fp : List Nat, FingerprintClass.classify_fingerprint fp = amendedClassifyTable fp) ∧
    FingerprintClass.classify_fingerprint [] = FingerprintClass.EMPTY ∧
    FingerprintClass.classify_fingerprint [3] = FingerprintClass.IDEAL ∧
    FingerprintClass.classify_fingerprint [3, 1] = FingerprintClass.ALMOST_IDEAL ∧
    FingerprintClass.classify_fingerprint [5] = FingerprintClass.COMPLICATED ∧
    FingerprintClass.classify_fingerprint [5, 1] = FingerprintClass.COMPLICATED_AND_STRANGE ∧
    FingerprintClass.classify_fingerprint [1] = FingerprintClass.ALMOST_EMPTY ∧
    FingerprintClass.classify_fingerprint [2] = FingerprintClass.INCOMPLETE :=
  ⟨classify_eq_amended, by decide, by decide, by decide, by decide, by decide,
   by decide, by decide⟩

/-- C9: on fingerprints of positive run lengths — in particular on every
fingerprint actually produced by `get_fingerprint` — the final fallback
branch is unreachable: `classify_fingerprint` never returns `JUNK`. -/
theorem C9_junk_unreachable :
    (∀ fp : List Nat, (∀ x ∈ fp, 0 < x) →
      FingerprintClass.classify_fingerprint fp ≠ FingerprintClass.JUNK) ∧
    (∀ r : Record, r.record.length = r.preclassified.length →
      FingerprintClass.classify_fingerprint (get_fingerprint r) ≠ FingerprintClass.JUNK) := by
  refine ⟨classify_ne_JUNK, fun r h => ?_⟩
  apply classify_ne_JUNK
  intro x hx
  rw [get_fingerprint_eq r h] at hx
  obtain ⟨p, hp, hpe⟩ := List.mem_map.mp hx
  rw [← hpe]
  exact specRuns_pos _ p hp

theorem C9_junk_unreachable_witness :
    FingerprintClass.classify_fingerprint [1] ≠ FingerprintClass.JUNK ∧
    FingerprintClass.classify_fingerprint
        (get_fingerprint ⟨["a"], [true]⟩) ≠ FingerprintClass.JUNK :=
  ⟨C9_junk_unreachable.1 [1] (by decide),
   C9_junk_unreachable.2 ⟨["a"], [true]⟩ (by decide)⟩

/-- C7: `parse_founders_record` is total — it returns a result on every
token list (a `none`, which models a Python exception, never occurs) — and
on the empty token list all fields of the result are absent. -/
theorem C7_total_and_empty (isName isCountry : String → Bool) (founder : List String) :
    (parse_founders_record isName isCountry founder).isSome = true ∧
    parse_founders_record isName isCountry [] = some ⟨[], [], [], [], [], []⟩ := by
  constructor
  · obtain ⟨names, name_rng, hns, hcase⟩ := parse_cases isName isCountry founder
    rcases hcase with ⟨-, hp⟩ | ⟨-, s, e, addr, arng, -, -, hp⟩ <;> rw [hp] <;> rfl
  · rfl

/-- C4: a name is extracted exactly when the name fingerprint's class is
one of the four name-bearing classes — equivalently, exactly when the name
classification vector has a true-run of length at least 3 — and in that
case the name is the space-joined token segment of the longest name run. -/
theorem C4_name_extraction (isName isCountry : String → Bool) (founder : List String)
    (res : ExtractionResult)
    (h : parse_founders_record isName isCountry founder = some res) :
    ((res.names ≠ []) ↔
      FingerprintClass.classify_fingerprint
          (get_fingerprint ⟨founder, founder.map isName⟩) ∈
        [FingerprintClass.IDEAL, FingerprintClass.COMPLICATED,
         FingerprintClass.ALMOST_IDEAL, FingerprintClass.COMPLICATED_AND_STRANGE]) ∧
    ((res.names ≠ []) ↔ ∃ p ∈ specRuns (founder.map isName), 3 ≤ p.2) ∧
    (∀ s e, get_longest_range ⟨founder, founder.map isName⟩ = some (s, e) →
      res.names ≠ [] →
      res.names = [String.intercalate " " ((founder.drop s).take (e - s))]) := by
  obtain ⟨names, name_rng, hns, hcase⟩ := parse_cases isName isCountry founder
  have hres : res.names = names := by
    rcases hcase with ⟨-, hp⟩ | ⟨-, s, e, addr, arng, -, -, hp⟩ <;>
      (rw [h] at hp; rw [Option.some.inj hp])
  by_cases hcls : FingerprintClass.classify_fingerprint
      (get_fingerprint ⟨founder, founder.map isName⟩) ∈
      [FingerprintClass.IDEAL, FingerprintClass.COMPLICATED,
       FingerprintClass.ALMOST_IDEAL, FingerprintClass.COMPLICATED_AND_STRANGE]
  · obtain ⟨s0, e0, hglr0, hsome⟩ := nameStep_licensed isName founder hcls
    rw [hns] at hsome
    have hnames : names =
        [String.intercalate " " ((founder.drop s0).take (e0 - s0))] :=
      congrArg Prod.fst (Option.some.inj hsome)
    refine ⟨?_, ?_, ?_⟩
    · rw [hres, hnames]
      exact iff_of_true (by simp) hcls
    · rw [hres, hnames]
      exact iff_of_true (by simp) ((licensed_iff_long_run _ _).mp hcls)
    · intro s e hglr _
      rw [hglr0] at hglr
      have h4 : s0 = s ∧ e0 = e := by simpa using Option.some.inj hglr
      rw [hres, hnames, h4.1, h4.2]
  · have hsome := nameStep_not_licensed isName founder hcls
    rw [hns] at hsome
    have hnames : names = [] := congrArg Prod.fst (Option.some.inj hsome)
    refine ⟨?_, ?_, ?_⟩
    · rw [hres, hnames]
      exact iff_of_false (by simp) hcls
    · rw [hres, hnames]
      refine iff_of_false (by simp) ?_
      intro hex
      exact hcls ((licensed_iff_long_run _ _).mpr hex)
    · intro s e _ hne
      rw [hres, hnames] at hne
      exact absurd rfl hne

def wNameGaz : String → Bool := fun s => s == "іван" || s == "петрович" || s == "шевченко"

def wNoGaz : String → Bool := fun _ => false

def wFounder : List String := ["тов", "іван", "петрович", "шевченко"]

def wRes : ExtractionResult :=
  ⟨["іван петрович шевченко"], [], [], [(1, 4)], [], []⟩

theorem C4_name_extraction_witness :
    parse_founders_record wNameGaz wNoGaz wFounder = some wRes ∧
    (((wRes.names ≠ []) ↔
      FingerprintClass.classify_fingerprint
          (get_fingerprint ⟨wFounder, wFounder.map wNameGaz⟩) ∈
        [FingerprintClass.IDEAL, FingerprintClass.COMPLICATED,
         FingerprintClass.ALMOST_IDEAL, FingerprintClass.COMPLICATED_AND_STRANGE]) ∧
     ((wRes.names ≠ []) ↔ ∃ p ∈ specRuns (wFounder.map wNameGaz), 3 ≤ p.2) ∧
     (∀ s e, get_longest_range ⟨wFounder, wFounder.map wNameGaz⟩ = some (s, e) →
       wRes.names ≠ [] →
       wRes.names = [String.intercalate " " ((wFounder.drop s).take (e - s))])) ∧
    wRes.names = ["іван петрович шевченко"] :=
  ⟨by decide, C4_name_extraction wNameGaz wNoGaz wFounder wRes (by decide), by decide⟩

/-- C5: a country is extracted exactly when the country fingerprint is one
of `(1,)`, `(2,)`, `(3,)`, in which case the country is the space-joined
sole run; the country decision depends only on the country gazetteer, not
on the name extraction. -/
theorem C5_country_extraction (isName isCountry : String → Bool) (founder : List String)
    (res : ExtractionResult)
    (h : parse_founders_record isName isCountry founder = some res) :
    ((res.countries ≠ []) ↔
      get_fingerprint ⟨founder, founder.map isCountry⟩ ∈ ([[1], [2], [3]] : List (List Nat))) ∧
    (∀ s e, get_longest_range ⟨founder, founder.map isCountry⟩ = some (s, e) →
      res.countries ≠ [] →
      res.countries = [String.intercalate " " ((founder.drop s).take (e - s))]) ∧
    (∀ (isName2 : String → Bool) (res2 : ExtractionResult),
      parse_founders_record isName2 isCountry founder = some res2 →
      res2.countries = res.countries) := by
  obtain ⟨names, name_rng, hns, hcase⟩ := parse_cases isName isCountry founder
  rcases hcase with ⟨hshape, hp⟩ | ⟨hshape, s, e, addr, arng, hglr, hast, hp⟩
  · rw [h] at hp
    have h2 := Option.some.inj hp
    have hcres : res.countries = [] := by rw [h2]
    refine ⟨by rw [hcres]; exact iff_of_false (by simp) hshape, ?_, ?_⟩
    · intro s e _ hne
      rw [hcres] at hne
      exact absurd rfl hne
    · intro isName2 res2 h2p
      obtain ⟨names2, name_rng2, hns2, hcase2⟩ := parse_cases isName2 isCountry founder
      rcases hcase2 with ⟨-, hp2⟩ | ⟨hshape2, _, _, _, _, _, _, hp2⟩
      · rw [h2p] at hp2
        rw [Option.some.inj hp2, hcres]
      · exact absurd hshape2 hshape
  · rw [h] at hp
    have h2 := Option.some.inj hp
    have hcres : res.countries =
        [String.intercalate " " ((founder.drop s).take (e - s))] := by rw [h2]
    refine ⟨by rw [hcres]; exact iff_of_true (by simp) hshape, ?_, ?_⟩
    · intro s' e' hglr' _
      rw [hglr] at hglr'
      have h4 : s = s' ∧ e = e' := by simpa using Option.some.inj hglr'
      rw [hcres, h4.1, h4.2]
    · intro isName2 res2 h2p
      obtain ⟨names2, name_rng2, hns2, hcase2⟩ := parse_cases isName2 isCountry founder
      rcases hcase2 with ⟨hshape2, hp2⟩ | ⟨-, s2, e2, addr2, arng2, hglr2, -, hp2⟩
      · exact absurd hshape hshape2
      · rw [h2p] at hp2
        have hcres2 : res2.countries =
            [String.intercalate " " ((founder.drop s2).take (e2 - s2))] := by
          rw [Option.some.inj hp2]
        rw [hglr] at hglr2
        have h4 : s = s2 ∧ e = e2 := by simpa using Option.some.inj hglr2
        rw [hcres2, hcres, h4.1, h4.2]

def wCountryGaz : String → Bool := fun s => s == "україна"

def wFounderC : List String := ["x", "україна", "вул", "шевченка"]

def wResC : ExtractionResult :=
  ⟨[], ["україна"], ["вул шевченка"], [], [(1, 2)], [(2, 4)]⟩

theorem C5_country_extraction_witness :
    parse_founders_record wNoGaz wCountryGaz wFounderC = some wResC ∧
    (((wResC.countries ≠ []) ↔
      get_fingerprint ⟨wFounderC, wFounderC.map wCountryGaz⟩ ∈
        ([[1], [2], [3]] : List (List Nat))) ∧
     (∀ s e, get_longest_range ⟨wFounderC, wFounderC.map wCountryGaz⟩ = some (s, e) →
       wResC.countries ≠ [] →
       wResC.countries = [String.intercalate " " ((wFounderC.drop s).take (e - s))]) ∧
     (∀ (isName2 : String → Bool) (res2 : ExtractionResult),
       parse_founders_record isName2 wCountryGaz wFounderC = some res2 →
       res2.countries = wResC.countries)) ∧
    wResC.countries = ["україна"] :=
  ⟨by decide, C5_country_extraction wNoGaz wCountryGaz wFounderC wResC (by decide), by decide⟩

def cexIsCountry : String → Bool := fun s => s == "україна"

def cexFounderA : List String := ["україна", ",.", "будинок"]

def cexFounderB : List String := ["україна", "", "", ""]

def cexResA : ExtractionResult :=
  ⟨[], ["україна"], ["будинок"], [], [(0, 1)], [(2, 3)]⟩

def cexResB : ExtractionResult :=
  ⟨[], ["україна"], [""], [], [(0, 1)], [(2, 3)]⟩

/-- C6, counterexample: the punctuation trim at source lines 244/247 is the
Python *substring* test `token in ",.;- "`, not a test against the five
single-character tokens.  On `cexFounderA` the country span ends at index 1
and the leading address token is `",."`, which the claim's trim (one of
`, . ; -` or a bare space) keeps, yielding address `",. будинок"`, while the
code trims it and yields `"будинок"`.  On `cexFounderB` the code emits an
empty-string address, which the claim asserts never happens. -/
theorem C6_counterexample :
    parse_founders_record wNoGaz cexIsCountry cexFounderA = some cexResA ∧
    cexResA.country_rng = [(0, 1)] ∧ (1 : Nat) < cexFounderA.length ∧
    cexResA.addresses = ["будинок"] ∧
    claimAddress cexFounderA 1 = [",. будинок"] ∧
    cexResA.addresses ≠ claimAddress cexFounderA 1 ∧
    parse_founders_record wNoGaz cexIsCountry cexFounderB = some cexResB ∧
    cexResB.addresses = [""] := by
  refine ⟨by decide, by decide, by decide, by decide, by decide, by decide,
    by decide, by decide⟩

/-- C6, amended: the address is derived from the token range between the
country span's end `k` (when `k` is strictly before the end of the record)
and the first occurrence of the anchor keyword `"розмір"` if present, else
the end of the record; one leading and one trailing token are dropped when
they are *substrings* of the five-character string `",.;- "` (which
includes the five single-character tokens, the empty token, and
multi-character tokens such as `",."`); an empty or inverted range yields
no address, and otherwise the trimmed range is space-joined (which can be
the empty string when the remaining tokens are all empty strings).  No
country span means no address. -/
theorem C6_amended_address (isName isCountry : String → Bool) (founder : List String)
    (res : ExtractionResult)
    (h : parse_founders_record isName isCountry founder = some res) :
    (res.country_rng = [] → res.addresses = []) ∧
    (∀ s e, res.country_rng = [(s, e)] →
      res.addresses = if e < founder.length then specAddress founder e else []) := by
  obtain ⟨names, name_rng, hns, hcase⟩ := parse_cases isName isCountry founder
  rcases hcase with ⟨hshape, hp⟩ | ⟨hshape, s, e, addr, arng, hglr, hast, hp⟩
  · rw [h] at hp
    rw [Option.some.inj hp]
    refine ⟨fun _ => rfl, fun s e hc => ?_⟩
    have hc2 : ([] : List (Nat × Nat)) = [(s, e)] := hc
    exact absurd hc2 (by simp)
  · rw [h] at hp
    rw [Option.some.inj hp]
    refine ⟨fun hc => ?_, fun s' e' hc => ?_⟩
    · have hc2 : ([(s, e)] : List (Nat × Nat)) = [] := hc
      exact absurd hc2 (by simp)
    · have hc2 : ([(s, e)] : List (Nat × Nat)) = [(s', e')] := hc
      have h4 : s = s' ∧ e = e' := by simpa using hc2
      obtain ⟨hs, he⟩ := h4
      subst hs
      subst he
      have hb := glr_bounds ⟨founder, founder.map isCountry⟩ s e hglr
      by_cases hlt : e < founder.length
      · rw [if_pos hlt]
        obtain ⟨rng, heq, -⟩ := addressStep_spec founder e (by omega) hlt
        rw [hast] at heq
        exact congrArg Prod.fst (Option.some.inj heq)
      · rw [if_neg hlt]
        have heq := addressStep_at_end founder e hlt
        rw [hast] at heq
        exact congrArg Prod.fst (Option.some.inj heq)

theorem C6_amended_address_witness :
    parse_founders_record wNoGaz cexIsCountry cexFounderA = some cexResA ∧
    ((cexResA.country_rng = [] → cexResA.addresses = []) ∧
     (∀ s e, cexResA.country_rng = [(s, e)] →
       cexResA.addresses =
         if e < cexFounderA.length then specAddress cexFounderA e else [])) ∧
    specAddress cexFounderA 1 = ["будинок"] :=
  ⟨by decide, C6_amended_address wNoGaz cexIsCountry cexFounderA cexResA (by decide),
   by decide⟩

/-- C8: every result of the heuristic parser carries at most one extracted
span — and hence at most one string — per entity type. -/
theorem C8_at_most_one (isName isCountry : String → Bool) (founder : List String)
    (res : ExtractionResult)
    (h : parse_founders_record isName isCountry founder = some res) :
    res.names.length ≤ 1 ∧ res.countries.length ≤ 1 ∧ res.addresses.length ≤ 1 ∧
    res.name_rng.length ≤ 1 ∧ res.country_rng.length ≤ 1 ∧
    res.address_rng.length ≤ 1 := by
  obtain ⟨names, name_rng, hns, hcase⟩ := parse_cases isName isCountry founder
  obtain ⟨hn1, hn2⟩ := nameStep_len isName founder names name_rng hns
  rcases hcase with ⟨hshape, hp⟩ | ⟨hshape, s, e, addr, arng, hglr, hast, hp⟩
  · rw [h] at hp
    rw [Option.some.inj hp]
    refine ⟨hn1, by simp, by simp, ?_, by simp, by simp⟩
    show name_rng.length ≤ 1
    omega
  · rw [h] at hp
    rw [Option.some.inj hp]
    obtain ⟨a, rng, heq, ha1, ha2⟩ := addressStep_isSome founder e
    rw [hast] at heq
    have h4 : addr = a ∧ arng = rng := by simpa using Option.some.inj heq
    refine ⟨hn1, by simp, ?_, ?_, by simp, ?_⟩
    · show addr.length ≤ 1
      rw [h4.1]
      exact ha1
    · show name_rng.length ≤ 1
      omega
    · show arng.length ≤ 1
      rw [h4.2]
      omega

theorem C8_at_most_one_witness :
    parse_founders_record wNoGaz wCountryGaz wFounderC = some wResC ∧
    (wResC.names.length ≤ 1 ∧ wResC.countries.length ≤ 1 ∧
     wResC.addresses.length ≤ 1 ∧ wResC.name_rng.length ≤ 1 ∧
     wResC.country_rng.length ≤ 1 ∧ wResC.address_rng.length ≤ 1) :=
  ⟨by decide, C8_at_most_one wNoGaz wCountryGaz wFounderC wResC (by decide)⟩

/-- C10: the length of the span returned by `get_longest_range` equals the
maximum entry of `get_fingerprint`; consequently every extracted name span
covers at least 3 tokens, and every extracted country span's length is the
sole entry (1, 2 or 3) of the country fingerprint. -/
theorem C10_span_length_eq_max :
    (∀ r : Record, r.record.length = r.preclassified.length →
      ∀ s e, get_longest_range r = some (s, e) →
        e - s = pyMax (get_fingerprint r)) ∧
    (∀ (isName isCountry : String → Bool) (founder : List String)
        (res : ExtractionResult),
      parse_founders_record isName isCountry founder = some res →
      (∀ p ∈ res.name_rng, 3 ≤ p.2 - p.1) ∧
      (∀ p ∈ res.country_rng,
        get_fingerprint ⟨founder, founder.map isCountry⟩ = [p.2 - p.1] ∧
        (p.2 - p.1 = 1 ∨ p.2 - p.1 = 2 ∨ p.2 - p.1 = 3))) := by
  have part1 : ∀ r : Record, r.record.length = r.preclassified.length →
      ∀ s e, get_longest_range r = some (s, e) →
        e - s = pyMax (get_fingerprint r) := by
    intro r hlen s e hglr
    rw [get_longest_range_eq] at hglr
    rcases hq : firstMaxPair (specRuns r.preclassified) with _ | q <;> rw [hq] at hglr
    · exact absurd hglr (by simp)
    · have h4 : q.1 = s ∧ q.1 + q.2 = e := by simpa using hglr
      rw [get_fingerprint_eq r hlen, pyMax_map_snd_eq _ q hq]
      omega
  refine ⟨part1, fun isName isCountry founder res h => ?_⟩
  obtain ⟨names, name_rng, hns, hcase⟩ := parse_cases isName isCountry founder
  have hnameside : ∀ p ∈ name_rng, 3 ≤ p.2 - p.1 := by
    by_cases hcls : FingerprintClass.classify_fingerprint
        (get_fingerprint ⟨founder, founder.map isName⟩) ∈
        [FingerprintClass.IDEAL, FingerprintClass.COMPLICATED,
         FingerprintClass.ALMOST_IDEAL, FingerprintClass.COMPLICATED_AND_STRANGE]
    · obtain ⟨s0, e0, hglr0, hsome⟩ := nameStep_licensed isName founder hcls
      rw [hns] at hsome
      have hrng : name_rng = [(s0, e0)] := congrArg Prod.snd (Option.some.inj hsome)
      intro p hp
      rw [hrng] at hp
      have hpe : p = (s0, e0) := by simpa using hp
      have hmax := part1 ⟨founder, founder.map isName⟩ (by simp) s0 e0 hglr0
      have h3 := (classify_mem_iff _).mp hcls
      rw [hpe]
      show 3 ≤ e0 - s0
      omega
    · have hsome := nameStep_not_licensed isName founder hcls
      rw [hns] at hsome
      have hrng : name_rng = [] := congrArg Prod.snd (Option.some.inj hsome)
      intro p hp
      rw [hrng] at hp
      exact absurd hp (by simp)
  rcases hcase with ⟨hshape, hp⟩ | ⟨hshape, s, e, addr, arng, hglr, hast, hp⟩
  · rw [h] at hp
    rw [Option.some.inj hp]
    exact ⟨hnameside, by intro p hp2; exact absurd hp2 (by simp)⟩
  · rw [h] at hp
    rw [Option.some.inj hp]
    refine ⟨hnameside, ?_⟩
    intro p hp2
    have hpe : p = (s, e) := by simpa using hp2
    have hk : ∃ k, (k = 1 ∨ k = 2 ∨ k = 3) ∧
        get_fingerprint ⟨founder, founder.map isCountry⟩ = [k] := by
      rcases (by simpa using hshape :
          get_fingerprint ⟨founder, founder.map isCountry⟩ = [1] ∨
          get_fingerprint ⟨founder, founder.map isCountry⟩ = [2] ∨
          get_fingerprint ⟨founder, founder.map isCountry⟩ = [3]) with hc | hc | hc
      · exact ⟨1, Or.inl rfl, hc⟩
      · exact ⟨2, Or.inr (Or.inl rfl), hc⟩
      · exact ⟨3, Or.inr (Or.inr rfl), hc⟩
    obtain ⟨k, hk13, hfp⟩ := hk
    have hc := hfp
    rw [fingerprint_map] at hc
    obtain ⟨s1, hruns⟩ := map_snd_singleton _ _ hc
    have hfmp : firstMaxPair (specRuns (founder.map isCountry)) = some (s1, k) := by
      rw [hruns]
      rfl
    rw [get_longest_range_eq, hfmp] at hglr
    have h4 : s1 = s ∧ s1 + k = e := by simpa using hglr
    have hes : e - s = k := by omega
    rw [hpe]
    constructor
    · show get_fingerprint ⟨founder, founder.map isCountry⟩ = [e - s]
      rw [hfp, hes]
    · show e - s = 1 ∨ e - s = 2 ∨ e - s = 3
      rw [hes]
      exact hk13

theorem C10_span_length_eq_max_witness :
    ((2 : Nat) - 0 = pyMax (get_fingerprint ⟨["a", "b", "c"], [true, true, false]⟩)) ∧
    ((∀ p ∈ wResC.name_rng, 3 ≤ p.2 - p.1) ∧
     (∀ p ∈ wResC.country_rng,
       get_fingerprint ⟨wFounderC, wFounderC.map wCountryGaz⟩ = [p.2 - p.1] ∧
       (p.2 - p.1 = 1 ∨ p.2 - p.1 = 2 ∨ p.2 - p.1 = 3))) :=
  ⟨C10_span_length_eq_max.1 ⟨["a", "b", "c"], [true, true, false]⟩ (by decide) 0 2
      (by decide),
   C10_span_length_eq_max.2 wNoGaz wCountryGaz wFounderC wResC (by decide)⟩

end UaEdr
